import Mathlib

/-!
Verification of the binary-search-tree id index (`src/btree.js`).

The source is a JavaScript binary search tree whose nodes carry a key
(`value`), a set of ids (`ids`, a JS object used as a set), and `left` /
`right` child pointers.  Two embeddings are developed:

* a functional tree model (`Tree`, `addT`, `containsT`, `equalsT`,
  `toArrayT`, `removeT`) in which the iterative descent loops of the
  source become structural recursion, and
* a pointer-heap model (`Heap`, `addH`, `removeH`, `containsH`,
  `equalsH`, `toArrayH`) that mirrors the source statement by
  statement, including the aliasing effects of its in-place pointer
  assignments and the `undefined` / `null` distinction.

The heap model is needed because the source's two-child deletion has
two defective branches whose results are not inductive trees:

* at the root, when the root's left child has no right child,
  `replacementParent` is still `undefined`; the guard
  `replacementParent !== null` is TRUE for `undefined` in JavaScript,
  so `replacementParent.right = ...` throws a TypeError;
* below the root, `replacementParent` is initialised to `current`
  itself, so `replacementParent.right = replacement.left` overwrites
  `current.right` before it is read, and `replacement.left =
  current.left` makes the replacement its own left child — a cyclic
  heap with the old right subtree unreachable.

In the functional model these two branches are marked with the error
values `JsErr.typeError` and `JsErr.corrupt`; the heap model exhibits
the actual thrown error and the actual corrupted heap.
-/

inductive JsErr where
  | typeError : JsErr
  | corrupt : JsErr
  deriving DecidableEq, Repr

/-- Id sets: the source stores ids as keys of a JS object
(`node.ids[id] = true`), so insertion is append-if-absent. -/
def insertId {I : Type} [DecidableEq I] (id : I) (ids : List I) : List I :=
  if id ∈ ids then ids else ids ++ [id]

/-- Functional model of a tree node / null pointer.  A JS node is
`{value, left, right, ids}`; `leaf` stands for the null pointer. -/
inductive BTree (K I : Type) where
  | leaf : BTree K I
  | node (value : K) (ids : List I) (left : BTree K I) (right : BTree K I) : BTree K I
  deriving DecidableEq, Repr

variable {K I : Type}

/-- `add` (src/btree.js:62-119): descend comparing with `<` / `>`;
insert a fresh node `{value, ids: {id: true}}` at the first null slot,
or add the id to the node with an equal value. -/
def addT [LinearOrder K] [DecidableEq I] (value : K) (id : I) : BTree K I → BTree K I
  | .leaf => .node value [id] .leaf .leaf
  | .node v ids l r =>
    if value < v then .node v ids (addT value id l) r
    else if v < value then .node v ids l (addT value id r)
    else .node v (insertId id ids) l r

/-- `contains` (src/btree.js:127-152): same descent, returns whether a
node with equal value was found. -/
def containsT [LinearOrder K] (value : K) : BTree K I → Bool
  | .leaf => false
  | .node v _ l r =>
    if value < v then containsT value l
    else if v < value then containsT value r
    else true

/-- `equals` (src/btree.js:160-189): same descent, returns the found
node's id set, or the empty set when not found. -/
def equalsT [LinearOrder K] (value : K) : BTree K I → List I
  | .leaf => []
  | .node v ids l r =>
    if value < v then equalsT value l
    else if v < value then equalsT value r
    else ids

/-- `traverse` / `toArray` (src/btree.js:381-389, 407-430): in-order
traversal collecting `{value, ids}` pairs. -/
def toArrayT : BTree K I → List (K × List I)
  | .leaf => []
  | .node v ids l r => toArrayT l ++ [(v, ids)] ++ toArrayT r

/-- The keys of the in-order traversal. -/
def keysT (t : BTree K I) : List K := (toArrayT t).map Prod.fst

/-- The rightmost `(value, ids)` of the tree rooted at `node v ids _ t`:
the source's `while (replacement.right !== null)` descent
(src/btree.js:264-267, 328-331). -/
def rightmostPair (v : K) (ids : List I) : BTree K I → K × List I
  | .leaf => (v, ids)
  | .node v2 ids2 _ r => rightmostPair v2 ids2 r

/-- Detach the rightmost node, reattaching its left subtree in its
place: the source's `replacementParent.right = replacement.left`
(src/btree.js:273, 333). -/
def delRightmost : BTree K I → BTree K I
  | .leaf => .leaf
  | .node _ _ l .leaf => l
  | .node v ids l (.node v2 ids2 l2 r2) => .node v ids l (delRightmost (.node v2 ids2 l2 r2))

/-- Excision of a found node (src/btree.js:228-351).  The id is deleted
from the id set first; if ids remain the node stays.  Otherwise the
node is excised according to its child count.  In the two-child case
with the left child lacking a right child, the source misbehaves:

* `isRoot = true` (src/btree.js:258-282): `replacementParent` is still
  `undefined` and the JS guard `replacementParent !== null` passes, so
  `replacementParent.right` throws a TypeError → `JsErr.typeError`;
* `isRoot = false` (src/btree.js:321-344): `replacementParent` starts
  at `current`, so the unconditional relink overwrites `current.right`
  and then creates the self-cycle `replacement.left = replacement`,
  a heap with no inductive-tree counterpart → `JsErr.corrupt`
  (see `removeH` for the exact corrupted heap). -/
def removeFound [DecidableEq I] (id : I) (v : K) (ids : List I) (l r : BTree K I)
    (isRoot : Bool) : Except JsErr (BTree K I) :=
  let ids2 := ids.filter (fun x => x ≠ id)
  if ids2 ≠ [] then .ok (.node v ids2 l r)
  else
    match l, r with
    | .leaf, .leaf => .ok .leaf
    | .leaf, .node rv rids rl rr => .ok (.node rv rids rl rr)
    | .node lv lids ll lr, .leaf => .ok (.node lv lids ll lr)
    | .node _ _ _ .leaf, .node _ _ _ _ =>
      if isRoot then .error .typeError else .error .corrupt
    | .node lv lids ll (.node b bids bl br), .node rv rids rl rr =>
      let rm := rightmostPair b bids br
      .ok (.node rm.1 rm.2
        (.node lv lids ll (delRightmost (.node b bids bl br)))
        (.node rv rids rl rr))

/-- `remove` search and splice (src/btree.js:199-358).  The iterative
search with its tracked `parent` becomes recursion: at a found node the
source reattaches via `current.value < parent.value`, which (values
being equal to the searched value at a find) is exactly the comparison
that chose the descent direction, so rebuilding along the recursion
path is faithful. -/
def removeAux [LinearOrder K] [DecidableEq I] (value : K) (id : I) :
    BTree K I → Bool → Except JsErr (BTree K I)
  | .leaf, _ => .ok .leaf
  | .node v ids l r, isRoot =>
    if value < v then (removeAux value id l false).map (fun t => .node v ids t r)
    else if v < value then (removeAux value id r false).map (fun t => .node v ids l t)
    else removeFound id v ids l r isRoot

/-- `remove` (src/btree.js:199-358), entered at the root. -/
def removeT [LinearOrder K] [DecidableEq I] (value : K) (id : I) (t : BTree K I) :
    Except JsErr (BTree K I) :=
  removeAux value id t true

/-- Build a tree by a sequence of `add` calls starting from the empty
tree. -/
def buildT [LinearOrder K] [DecidableEq I] (ops : List (K × I)) : BTree K I :=
  ops.foldl (fun t p => addT p.1 p.2 t) .leaf

/-- Every node's id set is non-empty: the data-model invariant of the
spec (§3, "Every node's id set is non-empty"). -/
def nonEmptyIds : BTree K I → Prop
  | .leaf => True
  | .node _ ids l r => ids ≠ [] ∧ nonEmptyIds l ∧ nonEmptyIds r

/-- Trees reachable from the empty tree by `add` calls and by `remove`
calls that complete without raising. -/
inductive ReachableT [LinearOrder K] [DecidableEq I] : BTree K I → Prop where
  | empty : ReachableT .leaf
  | stepAdd (k : K) (i : I) (t : BTree K I) : ReachableT t → ReachableT (addT k i t)
  | stepRemove (k : K) (i : I) (t t2 : BTree K I) :
      ReachableT t → removeT k i t = .ok t2 → ReachableT t2

/-!
## Pointer-heap model

A statement-by-statement embedding of `src/btree.js`.  A node pointer
is an index into a store of node records; `none` is the JS `null`.
Loops take explicit fuel and return `none` when it runs out, so every
evaluation result of the form `some _` certifies that the loop
terminated.  `removeH` returns the heap in both the normal and the
error outcome, because a thrown TypeError leaves the mutations already
performed (the id deletion) in place.
-/

/-- A heap node: `{value, left, right, ids}` with pointer-valued
children. -/
structure HNode (K I : Type) where
  value : K
  left : Option Nat
  right : Option Nat
  ids : List I
  deriving DecidableEq, Repr

/-- The tree object: a store of allocated nodes (pointer = index) and
the `_root` pointer (src/btree.js:40). -/
structure Heap (K I : Type) where
  store : List (HNode K I)
  root : Option Nat
  deriving DecidableEq, Repr

/-- The freshly constructed tree: `this._root = null`. -/
def emptyH (K I : Type) : Heap K I := ⟨[], none⟩

/-- The descent loop of `add` (src/btree.js:84-113), mutating the store
at the insertion point. -/
def addLoop [LinearOrder K] [DecidableEq I] (fuel : Nat) (value : K) (id : I)
    (nptr : Nat) (cur : Nat) (store : List (HNode K I)) : Option (List (HNode K I)) :=
  match fuel with
  | 0 => none
  | fuel + 1 => do
    let c ← store[cur]?
    if value < c.value then
      match c.left with
      | none => some (store.set cur ⟨c.value, some nptr, c.right, c.ids⟩)
      | some l => addLoop fuel value id nptr l store
    else if c.value < value then
      match c.right with
      | none => some (store.set cur ⟨c.value, c.left, some nptr, c.ids⟩)
      | some r => addLoop fuel value id nptr r store
    else
      some (store.set cur ⟨c.value, c.left, c.right, insertId id c.ids⟩)

/-- `add` (src/btree.js:62-119): allocate the node `{value, left: null,
right: null, ids: {id: true}}`, make it the root of an empty tree, or
descend and link it. -/
def addH [LinearOrder K] [DecidableEq I] (value : K) (id : I) (h : Heap K I) :
    Option (Heap K I) :=
  let store := h.store ++ [⟨value, none, none, [id]⟩]
  match h.root with
  | none => some ⟨store, some h.store.length⟩
  | some r => do
    let store2 ← addLoop (h.store.length + 1) value id h.store.length r store
    some ⟨store2, h.root⟩

/-- The shared search loop of `contains` (src/btree.js:133-147),
`equals` (166-180) and `remove` (209-225): returns the pair of the
tracked parent pointer and the found node, or `none` when the value is
absent. -/
def searchLoop [LinearOrder K] (fuel : Nat) (value : K) (parent : Option Nat)
    (cur : Option Nat) (store : List (HNode K I)) : Option (Option (Option Nat × Nat)) :=
  match fuel, cur with
  | _, none => some none
  | 0, some _ => none
  | fuel + 1, some c => do
    let n ← store[c]?
    if value < n.value then searchLoop fuel value (some c) n.left store
    else if n.value < value then searchLoop fuel value (some c) n.right store
    else some (some (parent, c))

/-- `contains` (src/btree.js:127-152). -/
def containsH [LinearOrder K] (value : K) (h : Heap K I) : Option Bool :=
  (searchLoop (h.store.length + 1) value none h.root h.store).map (fun r => r.isSome)

/-- `equals` (src/btree.js:160-189). -/
def equalsH [LinearOrder K] (value : K) (h : Heap K I) : Option (List I) := do
  let r ← searchLoop (h.store.length + 1) value none h.root h.store
  match r with
  | none => some []
  | some pc => do
    let n ← h.store[pc.2]?
    some n.ids

/-- The `while (replacement.right !== null)` descent of `remove`
(src/btree.js:264-267 and 328-331), tracking `replacementParent`. -/
def rightLoop (fuel : Nat) (rp : Option Nat) (repl : Nat)
    (store : List (HNode K I)) : Option (Option Nat × Nat) :=
  match fuel with
  | 0 => none
  | fuel + 1 => do
    let n ← store[repl]?
    match n.right with
    | none => some (rp, repl)
    | some r => rightLoop fuel (some repl) r store

/-- `remove` (src/btree.js:199-358), statement by statement.  The
result pairs an optional raised error with the heap as the call leaves
it (JS exceptions do not roll back the mutations already made).  Each
pointer assignment re-reads the store it mutates, reproducing the
aliasing of the source exactly.  In the root two-child case the tracked
`replacementParent` starts as `undefined` (here `none`); the source's
guard `replacementParent !== null` is true for `undefined`, so the
`none` case reproduces the TypeError thrown by
`replacementParent.right = replacement.left` (src/btree.js:270-273). -/
def removeH [LinearOrder K] [DecidableEq I] (value : K) (id : I) (h : Heap K I) :
    Option (Option JsErr × Heap K I) := do
  let res ← searchLoop (h.store.length + 1) value none h.root h.store
  match res with
  | none => some (none, h)
  | some pc => do
    let parent := pc.1
    let cur := pc.2
    let c ← h.store[cur]?
    let ids2 := c.ids.filter (fun x => x ≠ id)
    let store1 := h.store.set cur ⟨c.value, c.left, c.right, ids2⟩
    if ids2 ≠ [] then some (none, ⟨store1, h.root⟩)
    else
      let childCount := (if c.left ≠ none then 1 else 0) + (if c.right ≠ none then 1 else 0)
      if h.root = some cur then
        if childCount = 0 then some (none, ⟨store1, none⟩)
        else if childCount = 1 then
          some (none, ⟨store1, if c.right = none then c.left else c.right⟩)
        else do
          let rstart ← c.left
          let rr ← rightLoop (h.store.length + 1) none rstart store1
          match rr.1 with
          | none => some (some .typeError, ⟨store1, h.root⟩)
          | some rpp => do
            let repl := rr.2
            let rpn ← store1[rpp]?
            let repln ← store1[repl]?
            let store2 := store1.set rpp ⟨rpn.value, rpn.left, repln.left, rpn.ids⟩
            let repln2 ← store2[repl]?
            let root2 ← store2[cur]?
            let store3 := store2.set repl ⟨repln2.value, repln2.left, root2.right, repln2.ids⟩
            let repln3 ← store3[repl]?
            let root3 ← store3[cur]?
            let store4 := store3.set repl ⟨repln3.value, root3.left, repln3.right, repln3.ids⟩
            some (none, ⟨store4, some repl⟩)
      else do
        let p ← parent
        if childCount = 0 then do
          let pn ← store1[p]?
          let store2 :=
            if c.value < pn.value then store1.set p ⟨pn.value, none, pn.right, pn.ids⟩
            else store1.set p ⟨pn.value, pn.left, none, pn.ids⟩
          some (none, ⟨store2, h.root⟩)
        else if childCount = 1 then do
          let pn ← store1[p]?
          let child := if c.left = none then c.right else c.left
          let store2 :=
            if c.value < pn.value then store1.set p ⟨pn.value, child, pn.right, pn.ids⟩
            else store1.set p ⟨pn.value, pn.left, child, pn.ids⟩
          some (none, ⟨store2, h.root⟩)
        else do
          let rstart ← c.left
          let rr ← rightLoop (h.store.length + 1) (some cur) rstart store1
          let rpp ← rr.1
          let repl := rr.2
          let rpn ← store1[rpp]?
          let repln ← store1[repl]?
          let store2 := store1.set rpp ⟨rpn.value, rpn.left, repln.left, rpn.ids⟩
          let repln2 ← store2[repl]?
          let cur2 ← store2[cur]?
          let store3 := store2.set repl ⟨repln2.value, repln2.left, cur2.right, repln2.ids⟩
          let repln3 ← store3[repl]?
          let cur3 ← store3[cur]?
          let store4 := store3.set repl ⟨repln3.value, cur3.left, repln3.right, repln3.ids⟩
          let pn4 ← store4[p]?
          let cur4 ← store4[cur]?
          let store5 :=
            if cur4.value < pn4.value then store4.set p ⟨pn4.value, some repl, pn4.right, pn4.ids⟩
            else store4.set p ⟨pn4.value, pn4.left, some repl, pn4.ids⟩
          some (none, ⟨store5, h.root⟩)

/-- In-order traversal over the heap (`traverse` / `toArray`,
src/btree.js:381-389, 407-430), fuelled: a cyclic heap exhausts the
fuel and yields `none`. -/
def inOrderH (fuel : Nat) (store : List (HNode K I)) : Option Nat → Option (List (K × List I))
  | none => some []
  | some p =>
    match fuel with
    | 0 => none
    | fuel + 1 => do
      let n ← store[p]?
      let ls ← inOrderH fuel store n.left
      let rs ← inOrderH fuel store n.right
      some (ls ++ [(n.value, n.ids)] ++ rs)

/-- `toArray` (src/btree.js:381-389). -/
def toArrayH (h : Heap K I) : Option (List (K × List I)) :=
  inOrderH (h.store.length + 1) h.store h.root

/-!
## Raw-comparison model of `add`

The source compares keys with the untyped JavaScript `<` and `>`
operators.  For keys on which both operators return false without the
keys being equal (incomparable keys), `add` falls through to the
equal-keys branch.  `addRaw` keeps the two comparisons abstract to
state exactly that; `addT` is its instance at a genuine linear order.
-/

/-- `add` (src/btree.js:62-119) over raw boolean comparisons, as the
untyped source actually runs: `lt value v` is `value < current.value`,
`gt value v` is `value > current.value`, and every other outcome takes
the equal-keys branch which augments the id set. -/
def addRaw [DecidableEq I] (lt gt : K → K → Bool) (value : K) (id : I) :
    BTree K I → BTree K I
  | .leaf => .node value [id] .leaf .leaf
  | .node v ids l r =>
    if lt value v then .node v ids (addRaw lt gt value id l) r
    else if gt value v then .node v ids l (addRaw lt gt value id r)
    else .node v (insertId id ids) l r

/-- A comparison making `0` incomparable to every key: both `ltNum 0 b`
and `gtNum 0 b` are false, as with the JS `<` / `>` on values that
coerce to NaN. -/
def ltNum (a b : Int) : Bool := decide (a ≠ 0 ∧ b ≠ 0 ∧ a < b)

/-- The matching `>` comparison; see `ltNum`. -/
def gtNum (a b : Int) : Bool := decide (a ≠ 0 ∧ b ≠ 0 ∧ b < a)

/-!
## Concrete heaps for the evaluated scenarios
-/

/-- Heap built by `add(2,1); add(1,1); add(3,1)`: the root has two
children and the root's left child has no right child. -/
def exHeapA : Option (Heap Int Int) := do
  let h1 ← addH 2 1 (emptyH Int Int)
  let h2 ← addH 1 1 h1
  addH 3 1 h2

/-- Heap built by `add(10,1); add(5,1); add(3,1); add(7,1)`: the node
with key 5 is a non-root node with two children whose left child (key
3) has no right child. -/
def exHeapB : Option (Heap Int Int) := do
  let h1 ← addH 10 1 (emptyH Int Int)
  let h2 ← addH 5 1 h1
  let h3 ← addH 3 1 h2
  addH 7 1 h3

/-- Heap with root 5, left subtree {2,1,4,3} and right subtree {8,7,9},
one id each (spec §8, structural correctness scenario). -/
def exHeapC : Option (Heap Int Int) := do
  let h1 ← addH 5 1 (emptyH Int Int)
  let h2 ← addH 2 1 h1
  let h3 ← addH 1 1 h2
  let h4 ← addH 4 1 h3
  let h5 ← addH 3 1 h4
  let h6 ← addH 8 1 h5
  let h7 ← addH 7 1 h6
  addH 9 1 h7

/-- The heap of `exHeapC` after `remove(5, 1)`. -/
def exHeapC5 : Option (Option JsErr × Heap Int Int) := exHeapC.bind (removeH 5 1)

/-!
## Lemmas about the functional model
-/

theorem insertId_idem [DecidableEq I] (i : I) (ids : List I) :
    insertId i (insertId i ids) = insertId i ids := by
  by_cases h : i ∈ ids <;> simp [insertId, h]

theorem mem_insertId_self [DecidableEq I] (i : I) (ids : List I) : i ∈ insertId i ids := by
  by_cases h : i ∈ ids <;> simp [insertId, h]

theorem insertId_ne_nil [DecidableEq I] (i : I) (ids : List I) : insertId i ids ≠ [] := by
  by_cases h : i ∈ ids
  · simpa [insertId, h] using List.ne_nil_of_mem h
  · simp [insertId, h]

/-- Claim C5: id insertion is idempotent — adding the same `(key, id)`
pair twice leaves the tree equal to adding it once. -/
theorem add_idempotent [LinearOrder K] [DecidableEq I] (t : BTree K I) (k : K) (i : I) :
    addT k i (addT k i t) = addT k i t := by
  induction t with
  | leaf => simp [addT, lt_irrefl, insertId]
  | node v ids l r ihl ihr =>
    by_cases h1 : k < v
    · simp [addT, h1, ihl]
    · by_cases h2 : v < k
      · simp [addT, h1, h2, ihr]
      · simp [addT, h1, h2, insertId_idem]

/-- Claim C6: insert/lookup round-trip — immediately after
`add(k, i)`, `contains(k)` is true and `equals(k)` contains `i`. -/
theorem add_lookup_round_trip [LinearOrder K] [DecidableEq I] (t : BTree K I) (k : K) (i : I) :
    containsT k (addT k i t) = true ∧ i ∈ equalsT k (addT k i t) := by
  induction t with
  | leaf => refine ⟨?_, ?_⟩ <;> simp [addT, containsT, equalsT, lt_irrefl]
  | node v ids l r ihl ihr =>
    by_cases h1 : k < v
    · simpa [addT, containsT, equalsT, h1] using ihl
    · by_cases h2 : v < k
      · simpa [addT, containsT, equalsT, h1, h2] using ihr
      · simp [addT, containsT, equalsT, h1, h2, mem_insertId_self]

/-- Claim C7: deletion shrinks the id set before removing the node.
With ids 1 and 3 under a key `k`, `remove(k, 1)` leaves the node in
place with id set `{3}` (structure unchanged), `contains k` true and
`equals k = {3}`; then `remove(k, 3)` empties the tree, making
`contains k` false and the ordered sequence empty. -/
theorem remove_shrinks_then_deletes [LinearOrder K] (k : K) :
    removeT k 1 (addT k 3 (addT k (1 : Int) (.leaf : BTree K Int)))
      = .ok (.node k [3] .leaf .leaf) ∧
    containsT k (.node k [(3 : Int)] .leaf .leaf : BTree K Int) = true ∧
    equalsT k (.node k [(3 : Int)] .leaf .leaf : BTree K Int) = [3] ∧
    removeT k 3 (.node k [(3 : Int)] .leaf .leaf : BTree K Int) = .ok .leaf ∧
    containsT k (.leaf : BTree K Int) = false ∧
    toArrayT (.leaf : BTree K Int) = [] := by
  refine ⟨?_, ?_, ?_, ?_, ?_, ?_⟩ <;>
    simp [addT, removeT, removeAux, removeFound, containsT, equalsT, toArrayT,
      insertId, lt_irrefl]

theorem keysT_node (v : K) (ids : List I) (l r : BTree K I) :
    keysT (.node v ids l r) = keysT l ++ v :: keysT r := by
  simp [keysT, toArrayT]

/-- Membership in the keys after an `add`: the new key joins, nothing
else changes (for arbitrary trees, since `add` only descends by
comparisons). -/
theorem mem_keysT_addT [LinearOrder K] [DecidableEq I] (t : BTree K I) (k : K) (i : I)
    (a : K) : a ∈ keysT (addT k i t) ↔ a = k ∨ a ∈ keysT t := by
  induction t with
  | leaf => simp [addT, keysT_node, keysT, toArrayT]
  | node v ids l r ihl ihr =>
    by_cases h1 : k < v
    · simp only [addT, if_pos h1, keysT_node, List.mem_append, List.mem_cons, ihl]
      tauto
    · by_cases h2 : v < k
      · simp only [addT, if_neg h1, if_pos h2, keysT_node, List.mem_append, List.mem_cons, ihr]
        tauto
      · have hkv : k = v := le_antisymm (not_lt.mp h2) (not_lt.mp h1)
        subst hkv
        simp only [addT, if_neg h1, if_neg h2, keysT_node, List.mem_append, List.mem_cons]
        tauto

/-- The search-tree ordering invariant: all keys of the left subtree
are below the node's key, all keys of the right subtree above. -/
def isBST [LinearOrder K] : BTree K I → Prop
  | .leaf => True
  | .node v _ l r =>
    (∀ a ∈ keysT l, a < v) ∧ (∀ a ∈ keysT r, v < a) ∧ isBST l ∧ isBST r

theorem isBST_addT [LinearOrder K] [DecidableEq I] (t : BTree K I) (k : K) (i : I)
    (h : isBST t) : isBST (addT k i t) := by
  induction t with
  | leaf =>
    simp only [addT, isBST]
    refine ⟨?_, ?_, trivial, trivial⟩ <;> simp [keysT, toArrayT]
  | node v ids l r ihl ihr =>
    simp only [isBST] at h
    obtain ⟨hbl, hbr, hl, hr⟩ := h
    by_cases h1 : k < v
    · simp only [addT, if_pos h1, isBST]
      refine ⟨?_, hbr, ihl hl, hr⟩
      intro a ha
      rcases (mem_keysT_addT l k i a).mp ha with rfl | ha2
      · exact h1
      · exact hbl a ha2
    · by_cases h2 : v < k
      · simp only [addT, if_neg h1, if_pos h2, isBST]
        refine ⟨hbl, ?_, hl, ihr hr⟩
        intro a ha
        rcases (mem_keysT_addT r k i a).mp ha with rfl | ha2
        · exact h2
        · exact hbr a ha2
      · simp only [addT, if_neg h1, if_neg h2, isBST]
        exact ⟨hbl, hbr, hl, hr⟩

/-- In-order traversal of a search tree lists the keys in strictly
ascending order. -/
theorem pairwise_keysT [LinearOrder K] (t : BTree K I) (h : isBST t) :
    List.Pairwise (· < ·) (keysT t) := by
  induction t with
  | leaf => simp [keysT, toArrayT]
  | node v ids l r ihl ihr =>
    simp only [isBST] at h
    obtain ⟨hbl, hbr, hl, hr⟩ := h
    rw [keysT_node]
    refine List.pairwise_append.mpr ⟨ihl hl, List.pairwise_cons.mpr ⟨hbr, ihr hr⟩, ?_⟩
    intro a ha b hb
    rcases List.mem_cons.mp hb with rfl | hb2
    · exact hbl a ha
    · exact lt_trans (hbl a ha) (hbr b hb2)

theorem isBST_foldl [LinearOrder K] [DecidableEq I] (ops : List (K × I)) (t : BTree K I)
    (h : isBST t) : isBST (ops.foldl (fun t p => addT p.1 p.2 t) t) := by
  induction ops generalizing t with
  | nil => exact h
  | cons p ops ih => exact ih _ (isBST_addT t p.1 p.2 h)

theorem isBST_buildT [LinearOrder K] [DecidableEq I] (ops : List (K × I)) :
    isBST (buildT ops : BTree K I) :=
  isBST_foldl ops .leaf trivial

/-- Adding an id under a key already in the tree changes no key: the
descent ends in the equal-keys branch, which only rewrites the id set. -/
theorem keysT_addT_of_contains [LinearOrder K] [DecidableEq I] (t : BTree K I) (k : K)
    (i : I) (h : containsT k t = true) : keysT (addT k i t) = keysT t := by
  induction t with
  | leaf => simp [containsT] at h
  | node v ids l r ihl ihr =>
    by_cases h1 : k < v
    · rw [containsT, if_pos h1] at h
      simp [addT, h1, keysT_node, ihl h]
    · by_cases h2 : v < k
      · rw [containsT, if_neg h1, if_pos h2] at h
        simp [addT, h1, h2, keysT_node, ihr h]
      · simp [addT, h1, h2, keysT_node]

/-- Adding an id under a key already in the tree augments exactly that
key's id set. -/
theorem equalsT_addT_of_contains [LinearOrder K] [DecidableEq I] (t : BTree K I) (k : K)
    (i : I) (h : containsT k t = true) : equalsT k (addT k i t) = insertId i (equalsT k t) := by
  induction t with
  | leaf => simp [containsT] at h
  | node v ids l r ihl ihr =>
    by_cases h1 : k < v
    · rw [containsT, if_pos h1] at h
      simp [addT, equalsT, h1, ihl h]
    · by_cases h2 : v < k
      · rw [containsT, if_neg h1, if_pos h2] at h
        simp [addT, equalsT, h1, h2, ihr h]
      · simp [addT, equalsT, h1, h2]

/-- Claim C4: every tree built by a sequence of `add` calls from the
empty tree lists its keys in strictly ascending order (hence without
duplicates) in `toArray`, and an `add` with a key already present
changes no key — it only augments that key's id set. -/
theorem build_sorted_and_equal_key_augments [LinearOrder K] [DecidableEq I]
    (ops : List (K × I)) :
    List.Pairwise (· < ·) (keysT (buildT ops : BTree K I)) ∧
    ∀ (k : K) (i : I), containsT k (buildT ops : BTree K I) = true →
      keysT (addT k i (buildT ops)) = keysT (buildT ops) ∧
      equalsT k (addT k i (buildT ops)) = insertId i (equalsT k (buildT ops)) :=
  ⟨pairwise_keysT _ (isBST_buildT ops),
   fun k i h => ⟨keysT_addT_of_contains _ k i h, equalsT_addT_of_contains _ k i h⟩⟩

/-- Witness for C4 at the insertion sequence (2,1), (1,2), (3,3) and
the repeated key 2. -/
theorem build_sorted_witness :
    List.Pairwise (· < ·) (keysT (buildT [((2 : Int), (1 : Int)), (1, 2), (3, 3)] : BTree Int Int)) ∧
    (keysT (addT 2 5 (buildT [((2 : Int), (1 : Int)), (1, 2), (3, 3)] : BTree Int Int))
        = keysT (buildT [((2 : Int), (1 : Int)), (1, 2), (3, 3)] : BTree Int Int) ∧
      equalsT 2 (addT 2 5 (buildT [((2 : Int), (1 : Int)), (1, 2), (3, 3)] : BTree Int Int))
        = insertId 5 (equalsT 2 (buildT [((2 : Int), (1 : Int)), (1, 2), (3, 3)] : BTree Int Int))) := by
  have h := build_sorted_and_equal_key_augments [((2 : Int), (1 : Int)), (1, 2), (3, 3)]
  exact ⟨h.1, h.2 2 5 (by decide)⟩

/-- `remove` of an absent target leaves the tree unchanged at every
level of the descent, provided every node's id set is non-empty (the
data-model invariant): either the search fails, or the id deletion
removes nothing and the non-empty check keeps the node. -/
theorem removeAux_absent [LinearOrder K] [DecidableEq I] (t : BTree K I) (k : K) (i : I)
    (h1 : nonEmptyIds t) (h2 : i ∉ equalsT k t) (b : Bool) : removeAux k i t b = .ok t := by
  induction t generalizing b with
  | leaf => rfl
  | node v ids l r ihl ihr =>
    simp only [nonEmptyIds] at h1
    obtain ⟨hids, hl, hr⟩ := h1
    by_cases hc1 : k < v
    · rw [equalsT, if_pos hc1] at h2
      rw [removeAux, if_pos hc1, ihl hl h2 false]
      rfl
    · by_cases hc2 : v < k
      · rw [equalsT, if_neg hc1, if_pos hc2] at h2
        rw [removeAux, if_neg hc1, if_pos hc2, ihr hr h2 false]
        rfl
      · rw [equalsT, if_neg hc1, if_neg hc2] at h2
        have hfilter : ids.filter (fun x => x ≠ i) = ids :=
          List.filter_eq_self.mpr
            (fun a ha => decide_eq_true (fun he : a = i => h2 (he ▸ ha)))
        simp only [removeAux, if_neg hc1, if_neg hc2, removeFound]
        rw [hfilter, if_pos hids]

/-- Claim C8: removing an absent target is a no-op.  For every tree
satisfying the data-model invariant (non-empty id sets), a `remove`
whose id is not among the ids found for the key — in particular when
the key itself is absent, so the found set is empty — returns the tree
unchanged, and hence its `toArray` sequence unchanged. -/
theorem remove_absent_noop [LinearOrder K] [DecidableEq I] (t : BTree K I) (k : K) (i : I)
    (h1 : nonEmptyIds t) (h2 : i ∉ equalsT k t) :
    removeT k i t = .ok t ∧ (removeT k i t).map toArrayT = .ok (toArrayT t) := by
  have h := removeAux_absent t k i h1 h2 true
  refine ⟨h, ?_⟩
  show (removeAux k i t true).map toArrayT = .ok (toArrayT t)
  rw [h]
  rfl

/-- Witness for C8 at the tree holding key 5 with id set `{1}` and the
absent targets `(5, 2)` (key present, id absent). -/
theorem remove_absent_noop_witness :
    (nonEmptyIds (.node (5 : Int) [(1 : Int)] .leaf .leaf) ∧
      (2 : Int) ∉ equalsT (5 : Int) (.node (5 : Int) [(1 : Int)] .leaf .leaf)) ∧
    (removeT (5 : Int) (2 : Int) (.node (5 : Int) [(1 : Int)] .leaf .leaf)
        = .ok (.node 5 [1] .leaf .leaf) ∧
      (removeT (5 : Int) (2 : Int) (.node (5 : Int) [(1 : Int)] .leaf .leaf)).map toArrayT
        = .ok (toArrayT (.node (5 : Int) [(1 : Int)] .leaf .leaf))) :=
  ⟨⟨by simp [nonEmptyIds], by decide⟩,
   remove_absent_noop _ 5 2 (by simp [nonEmptyIds]) (by decide)⟩

theorem nonEmptyIds_addT [LinearOrder K] [DecidableEq I] (t : BTree K I) (k : K) (i : I)
    (h : nonEmptyIds t) : nonEmptyIds (addT k i t) := by
  induction t with
  | leaf => simp [addT, nonEmptyIds]
  | node v ids l r ihl ihr =>
    simp only [nonEmptyIds] at h
    obtain ⟨hids, hl, hr⟩ := h
    by_cases h1 : k < v
    · simp only [addT, if_pos h1, nonEmptyIds]
      exact ⟨hids, ihl hl, hr⟩
    · by_cases h2 : v < k
      · simp only [addT, if_neg h1, if_pos h2, nonEmptyIds]
        exact ⟨hids, hl, ihr hr⟩
      · simp only [addT, if_neg h1, if_neg h2, nonEmptyIds]
        exact ⟨insertId_ne_nil i ids, hl, hr⟩

theorem rightmostPair_snd_ne_nil (v : K) (ids : List I) (t : BTree K I)
    (hv : ids ≠ []) (ht : nonEmptyIds t) : (rightmostPair v ids t).2 ≠ [] := by
  induction t generalizing v ids with
  | leaf => simpa [rightmostPair] using hv
  | node v2 ids2 l r ihl ihr =>
    simp only [nonEmptyIds] at ht
    simp only [rightmostPair]
    exact ihr v2 ids2 ht.1 ht.2.2

theorem nonEmptyIds_delRightmost (t : BTree K I) (h : nonEmptyIds t) :
    nonEmptyIds (delRightmost t) := by
  induction t with
  | leaf => exact h
  | node v ids l r ihl ihr =>
    simp only [nonEmptyIds] at h
    obtain ⟨hids, hl, hr⟩ := h
    cases r with
    | leaf => simpa [delRightmost] using hl
    | node v2 ids2 l2 r2 =>
      simp only [delRightmost, nonEmptyIds]
      exact ⟨hids, hl, ihr hr⟩

theorem nonEmptyIds_removeFound [DecidableEq I] (i : I) (v : K) (ids : List I)
    (l r : BTree K I) (isRoot : Bool) (t2 : BTree K I)
    (h : nonEmptyIds (.node v ids l r)) (he : removeFound i v ids l r isRoot = .ok t2) :
    nonEmptyIds t2 := by
  simp only [nonEmptyIds] at h
  obtain ⟨hids, hl, hr⟩ := h
  simp only [removeFound] at he
  by_cases hf : ids.filter (fun x => x ≠ i) ≠ []
  · rw [if_pos hf] at he
    injection he with h2
    subst h2
    simp only [nonEmptyIds]
    exact ⟨hf, hl, hr⟩
  · rw [if_neg hf] at he
    cases l with
    | leaf =>
      cases r with
      | leaf =>
        cases he
        trivial
      | node rv rids rl rr =>
        cases he
        exact hr
    | node lv lids ll lr =>
      cases r with
      | leaf =>
        cases lr with
        | leaf =>
          cases he
          exact hl
        | node b2 bids bl br =>
          cases he
          exact hl
      | node rv rids rl rr =>
        cases lr with
        | leaf => cases isRoot <;> simp at he
        | node b2 bids bl br =>
          cases he
          simp only [nonEmptyIds] at hl
          obtain ⟨hlids, hll, hbids, hbl, hbr⟩ := hl
          show nonEmptyIds (BTree.node (rightmostPair b2 bids br).1 (rightmostPair b2 bids br).2
            (.node lv lids ll (delRightmost (.node b2 bids bl br))) (.node rv rids rl rr))
          simp only [nonEmptyIds]
          exact ⟨rightmostPair_snd_ne_nil b2 bids br hbids hbr,
            ⟨hlids, hll, nonEmptyIds_delRightmost _ ⟨hbids, hbl, hbr⟩⟩, hr⟩

theorem nonEmptyIds_removeAux [LinearOrder K] [DecidableEq I] (t : BTree K I) (k : K) (i : I)
    (h : nonEmptyIds t) : ∀ (b : Bool) (t2 : BTree K I),
      removeAux k i t b = .ok t2 → nonEmptyIds t2 := by
  induction t with
  | leaf =>
    intro b t2 he
    rw [removeAux] at he
    injection he with h2
    subst h2
    trivial
  | node v ids l r ihl ihr =>
    intro b t2 he
    simp only [nonEmptyIds] at h
    obtain ⟨hids, hl, hr⟩ := h
    by_cases h1 : k < v
    · rw [removeAux, if_pos h1] at he
      cases hrec : removeAux k i l false with
      | error e => rw [hrec] at he; simp [Except.map] at he
      | ok l2 =>
        rw [hrec] at he
        simp only [Except.map] at he
        injection he with h2
        subst h2
        simp only [nonEmptyIds]
        exact ⟨hids, ihl hl false l2 hrec, hr⟩
    · by_cases h2 : v < k
      · rw [removeAux, if_neg h1, if_pos h2] at he
        cases hrec : removeAux k i r false with
        | error e => rw [hrec] at he; simp [Except.map] at he
        | ok r2 =>
          rw [hrec] at he
          simp only [Except.map] at he
          injection he with h3
          subst h3
          simp only [nonEmptyIds]
          exact ⟨hids, hl, ihr hr false r2 hrec⟩
      · rw [removeAux, if_neg h1, if_neg h2] at he
        exact nonEmptyIds_removeFound i v ids l r b t2 ⟨hids, hl, hr⟩ he

theorem nonEmptyIds_of_reachable [LinearOrder K] [DecidableEq I] (t : BTree K I)
    (h : ReachableT t) : nonEmptyIds t := by
  induction h with
  | empty => trivial
  | stepAdd k i t ht ih => exact nonEmptyIds_addT t k i ih
  | stepRemove k i t t2 ht he ih => exact nonEmptyIds_removeAux t k i ih true t2 he

theorem contains_iff_equals_of_nonEmpty [LinearOrder K] (t : BTree K I)
    (h : nonEmptyIds t) (k : K) : containsT k t = true ↔ equalsT k t ≠ [] := by
  induction t with
  | leaf => simp [containsT, equalsT]
  | node v ids l r ihl ihr =>
    simp only [nonEmptyIds] at h
    obtain ⟨hids, hl, hr⟩ := h
    by_cases h1 : k < v
    · simpa [containsT, equalsT, h1] using ihl hl
    · by_cases h2 : v < k
      · simpa [containsT, equalsT, h1, h2] using ihr hr
      · simp [containsT, equalsT, h1, h2, hids]

/-- Claim C10 (amended): on every tree reachable from the empty tree by
`add` calls and by `remove` calls that complete without raising,
`contains k` is true exactly when `equals k` yields a non-empty id set
— every such tree keeps all its id sets non-empty. -/
theorem contains_iff_equals_reachable [LinearOrder K] [DecidableEq I] (t : BTree K I)
    (h : ReachableT t) (k : K) : containsT k t = true ↔ equalsT k t ≠ [] :=
  contains_iff_equals_of_nonEmpty t (nonEmptyIds_of_reachable t h) k

/-- Witness for C10 on the reachable tree `add(1, 2)` at key 1. -/
theorem contains_iff_equals_witness :
    containsT (1 : Int) (addT 1 (2 : Int) (.leaf : BTree Int Int)) = true ↔
      equalsT (1 : Int) (addT 1 (2 : Int) (.leaf : BTree Int Int)) ≠ [] :=
  contains_iff_equals_reachable _ (ReachableT.stepAdd 1 2 .leaf ReachableT.empty) 1

/-- Claim C2 (code evaluation at the failing input): on the tree built
by `add(2,1); add(1,1); add(3,1)` — root 2 with two children whose left
child 1 has no right child — `remove(2, 1)` does NOT run to completion:
the heap model raises the TypeError of `replacementParent.right =
replacement.left` with `replacementParent` still `undefined` (the JS
guard `replacementParent !== null` passes for `undefined`), and the
functional model returns the same error. -/
theorem remove_root_direct_left_raises :
    (exHeapA.bind (removeH 2 1)).map (fun r => r.1) = some (some JsErr.typeError) ∧
    removeT 2 1 (addT 3 1 (addT 1 1 (addT 2 (1 : Int) (.leaf : BTree Int Int))))
      = .error .typeError :=
  ⟨by decide, rfl⟩

/-- Claim C1 (code evaluation at the failing input): on the tree built
by `add(10,1); add(5,1); add(3,1); add(7,1)`, removing key 5 (a
non-root node with children 3 and 7, whose left child 3 has no right
child) does not excise the node as the claim describes.  The resulting
heap (store indices 0..3 holding keys 10, 5, 3, 7) has the node of
key 3 at index 2 with `left = some 2` — pointing at ITSELF — and no
reachable reference to index 3 (key 7): the right child was overwritten
before being attached, so the subtree is lost and the in-order
traversal exhausts its fuel on the cycle (`toArrayH` = `none`). -/
theorem remove_two_child_direct_left_corrupts :
    exHeapB.bind (removeH 5 1) = some (none,
      ⟨[⟨10, some 2, none, [1]⟩, ⟨5, some 2, none, []⟩,
        ⟨3, some 2, none, [1]⟩, ⟨7, none, none, [1]⟩], some 0⟩) ∧
    ((exHeapB.bind (removeH 5 1)).map
      (fun r => (r.2.store[2]?).map (fun n => n.left))) = some (some (some 2)) ∧
    ((exHeapB.bind (removeH 5 1)).bind (fun r => toArrayH r.2)) = none := by
  refine ⟨?_, ?_, ?_⟩ <;> decide

/-- Claim C3: on the tree with root 5, left subtree {2,1,4,3}, right
subtree {8,7,9} (one id each), `remove(5, 1)` completes without error
and the result lists keys [1,2,3,4,7,8,9] in order; `contains` is true
for each surviving key and false for 5. -/
theorem remove_root_five_inorder_contains :
    exHeapC5.map (fun r => r.1) = some none ∧
    (exHeapC5.bind (fun r => (toArrayH r.2).map (List.map Prod.fst)))
      = some [1, 2, 3, 4, 7, 8, 9] ∧
    (exHeapC5.bind (fun r => containsH 1 r.2)) = some true ∧
    (exHeapC5.bind (fun r => containsH 2 r.2)) = some true ∧
    (exHeapC5.bind (fun r => containsH 3 r.2)) = some true ∧
    (exHeapC5.bind (fun r => containsH 4 r.2)) = some true ∧
    (exHeapC5.bind (fun r => containsH 7 r.2)) = some true ∧
    (exHeapC5.bind (fun r => containsH 8 r.2)) = some true ∧
    (exHeapC5.bind (fun r => containsH 9 r.2)) = some true ∧
    (exHeapC5.bind (fun r => containsH 5 r.2)) = some false := by
  refine ⟨?_, ?_, ?_, ?_, ?_, ?_, ?_, ?_, ?_, ?_⟩ <;> decide

/-- Counterexample for claim C9: with the raw comparisons under which
key 0 is incomparable to every key (both `<` and `>` false, as the
untyped source evaluates them), `add(0, 9)` on a tree holding key 5
raises nothing — the result type has no error outcome at all — and
silently merges id 9 into the id set of key 5. -/
theorem incomparable_silent_merge :
    ltNum 0 5 = false ∧ gtNum 0 5 = false ∧ (0 : Int) ≠ 5 ∧
    addRaw ltNum gtNum 0 9 (.node 5 [(1 : Int)] .leaf .leaf)
      = .node 5 [1, 9] .leaf .leaf := by
  refine ⟨?_, ?_, ?_, ?_⟩ <;> decide

/-- Claim C9 (amended): when both comparisons on a visited node report
false — in particular for incomparable keys — `add` signals nothing: it
takes the equal-keys branch and augments that node's id set, returning
normally. -/
theorem incomparable_takes_equal_branch [DecidableEq I] (lt gt : K → K → Bool)
    (v value : K) (ids : List I) (l r : BTree K I) (id : I)
    (h1 : lt value v = false) (h2 : gt value v = false) :
    addRaw lt gt value id (.node v ids l r) = .node v (insertId id ids) l r := by
  simp [addRaw, h1, h2]

/-- Witness for the amended C9 at the incomparable pair (0, 5). -/
theorem incomparable_takes_equal_branch_witness :
    (ltNum 0 5 = false ∧ gtNum 0 5 = false) ∧
    addRaw ltNum gtNum 0 9 (.node 5 [(1 : Int)] .leaf .leaf)
      = .node 5 (insertId 9 [1]) .leaf .leaf :=
  ⟨⟨by decide, by decide⟩,
   incomparable_takes_equal_branch ltNum gtNum 5 0 [1] .leaf .leaf 9 (by decide) (by decide)⟩

/-- Counterexample for claim C10 as stated over all trees reachable by
`add` / `remove` sequences: after `add(2,1); add(1,1); add(3,1)` the
call `remove(2, 1)` deletes the root's last id and then throws (see
`remove_root_direct_left_raises`), leaving the key-2 node in place with
an EMPTY id set.  On the resulting heap `contains 2` is true while
`equals 2` is the empty set — the claimed equivalence fails, because
the invariant that empty-id nodes are excised is broken by the throwing
branch. -/
theorem contains_equals_disagree_after_error :
    (exHeapA.bind (removeH 2 1)).map (fun r => r.1) = some (some JsErr.typeError) ∧
    ((exHeapA.bind (removeH 2 1)).bind (fun r => containsH 2 r.2)) = some true ∧
    ((exHeapA.bind (removeH 2 1)).bind (fun r => equalsH 2 r.2)) = some [] := by
  refine ⟨?_, ?_, ?_⟩ <;> decide
